import Mathlib

/-!
Shallow embedding of the snowscape VS Code extension core algorithms:
the annotation scanner (`provideCodeLenses` in
`src/vscode-previews/src/previewCodeLensProvider.ts`) and the command
resolver (`buildCargoCommand` / `findPackageForFile` in
`src/vscode-previews/src/extension.ts`).

JavaScript strings are modelled as `List Char`; the regular expressions
appearing in the source are modelled by executable matching functions
that follow the backtracking semantics of the concrete patterns.  The
filesystem consumed by the resolver is modelled as a partial map from
workspace-relative paths to manifest contents (`none` covering both a
missing file and a failed read).
-/

/-- ASCII fragment of JavaScript whitespace, as used by `trim` and `\s`. -/
def isWsChar (c : Char) : Bool :=
  c = ' ' || c = '\t' || c = '\n' || c = '\r' || c = '\x0b' || c = '\x0c'

/-- JavaScript `\w`: ASCII letters, digits and underscore. -/
def isWordChar (c : Char) : Bool :=
  c.isAlpha || c.isDigit || c = '_'

/-- Remove the leading occurrence of `p` from `l`, if `l` starts with `p`. -/
def dropPre : List Char → List Char → Option (List Char)
  | [], l => some l
  | _ :: _, [] => none
  | a :: as, b :: bs => if a = b then dropPre as bs else none

/-- Does `l` start with `p`? -/
def isPre (p l : List Char) : Bool := (dropPre p l).isSome

/-- Does some suffix of `l` satisfy `p`?  This models a regex engine
trying every starting position from left to right. -/
def containsAt (p : List Char → Bool) : List Char → Bool
  | [] => p []
  | c :: rest => p (c :: rest) || containsAt p rest

/-- JavaScript `String.prototype.includes`. -/
def containsList (pat l : List Char) : Bool := containsAt (isPre pat) l

/-- JavaScript `String.prototype.trim` (ASCII whitespace fragment). -/
def jsTrim (l : List Char) : List Char :=
  ((l.dropWhile isWsChar).reverse.dropWhile isWsChar).reverse

/-- JavaScript `String.prototype.split` with a one-character separator. -/
def splitOnChar (sep : Char) : List Char → List (List Char)
  | [] => [[]]
  | c :: rest =>
    if c = sep then [] :: splitOnChar sep rest
    else
      match splitOnChar sep rest with
      | [] => [[c]]
      | l :: ls => (c :: l) :: ls

/-- `text.split("\n")` from `provideCodeLenses`. -/
def splitLines : List Char → List (List Char) := splitOnChar '\n'

/-- JavaScript `Array.prototype.join` with a one-character separator. -/
def joinWith (sep : Char) : List (List Char) → List Char
  | [] => []
  | [l] => l
  | l :: ls => l ++ sep :: joinWith sep ls

/-! ## Annotation scanner (previewCodeLensProvider.ts) -/

/-- `[^)]*\)`: consume characters up to and including the first `)`,
failing when no `)` remains. -/
def matchPayloadClose : List Char → Option (List Char)
  | [] => none
  | c :: rest => if c = ')' then some rest else matchPayloadClose rest

/-- The pattern `#\[snowscape::stateless(?:\([^)]*\))?\]` tried at one
starting position. -/
def statelessAt (l : List Char) : Bool :=
  match dropPre "#[snowscape::stateless".toList l with
  | none => false
  | some r =>
    if isPre "]".toList r then true
    else
      match dropPre "(".toList r with
      | none => false
      | some r2 =>
        match matchPayloadClose r2 with
        | none => false
        | some r3 => isPre "]".toList r3

/-- The pattern `#\[snowscape::stateful\([^)]*\)\]` tried at one
starting position. -/
def statefulAt (l : List Char) : Bool :=
  match dropPre "#[snowscape::stateful(".toList l with
  | none => false
  | some r =>
    match matchPayloadClose r with
    | none => false
    | some r2 => isPre "]".toList r2

/-- `statelessRegex.test(line)`. -/
def containsStateless (l : List Char) : Bool := containsAt statelessAt l

/-- `statefulRegex.test(line)`. -/
def containsStateful (l : List Char) : Bool := containsAt statefulAt l

/-- The four accepted declaration prefixes of the scanner. -/
def isFnDeclStart (t : List Char) : Bool :=
  isPre "fn ".toList t || isPre "pub fn ".toList t ||
  isPre "async fn ".toList t || isPre "pub async fn ".toList t

/-- The pattern `fn\s+(\w+)` tried at one starting position, returning
the captured identifier. -/
def fnNameAt (l : List Char) : Option (List Char) :=
  match dropPre "fn".toList l with
  | none => none
  | some r =>
    if (r.takeWhile isWsChar).isEmpty then none
    else
      let nm := (r.dropWhile isWsChar).takeWhile isWordChar
      if nm.isEmpty then none else some nm

/-- `nextLine.match(/fn\s+(\w+)/)`: first matching position wins. -/
def fnNameSearch : List Char → Option (List Char)
  | [] => none
  | c :: rest =>
    match fnNameAt (c :: rest) with
    | some nm => some nm
    | none => fnNameSearch rest

inductive PreviewType where
  | stateless
  | stateful
deriving DecidableEq, Repr

/-- One emitted code lens: the declaration line index, the function
name, and the annotation kind passed in its command arguments. -/
structure CodeLens where
  line : Nat
  functionName : List Char
  previewType : PreviewType
deriving DecidableEq, Repr

/-- The inner `while` loop of `provideCodeLenses`: `p` is the tail of
the line list starting at absolute index `j`; skip blank, attribute and
line-comment lines, then test the first remaining line for a function
declaration, stopping unconditionally there. -/
def findFunctionAux : List (List Char) → Nat → Option (Nat × List Char)
  | [], _ => none
  | l :: rest, j =>
    let t := jsTrim l
    if t.isEmpty || isPre "#[".toList t || isPre "//".toList t then
      findFunctionAux rest (j + 1)
    else if isFnDeclStart t then
      (fnNameSearch t).map (fun nm => (j, nm))
    else none

/-- One iteration of the outer scan loop: the head line `l` sits at
absolute index `i` and `rest` holds the following lines. -/
def lineHit (l : List Char) (rest : List (List Char)) (i : Nat) : Option CodeLens :=
  let t := jsTrim l
  if containsStateless t || containsStateful t then
    let pt := if containsStateless t then PreviewType.stateless else PreviewType.stateful
    match findFunctionAux rest (i + 1) with
    | some (j, nm) => some ⟨j, nm, pt⟩
    | none => none
  else none

/-- The dedup identity `functionLine:functionName` of a lens. -/
def lensKey (c : CodeLens) : Nat × List Char := (c.line, c.functionName)

/-- The scan loop of `provideCodeLenses`, with the `processedFunctions`
set made explicit. -/
def scanAux : List (List Char) → Nat → List (Nat × List Char) → List CodeLens
  | [], _, _ => []
  | l :: rest, i, processed =>
    match lineHit l rest i with
    | some c =>
      if lensKey c ∈ processed then scanAux rest (i + 1) processed
      else c :: scanAux rest (i + 1) (lensKey c :: processed)
    | none => scanAux rest (i + 1) processed

/-- Scan an already split document. -/
def scanLines (lines : List (List Char)) : List CodeLens := scanAux lines 0 []

/-- `provideCodeLenses` on the raw document text. -/
def provideCodeLenses (text : List Char) : List CodeLens := scanLines (splitLines text)

/-- All markers, as pairs (marker line index, classified kind), whose
forward lookahead lands on the action-target identity `k`. -/
def hitList : List (List Char) → Nat → Nat × List Char → List (Nat × PreviewType)
  | [], _, _ => []
  | l :: rest, i, k =>
    match lineHit l rest i with
    | some c =>
      if lensKey c = k then (i, c.previewType) :: hitList rest (i + 1) k
      else hitList rest (i + 1) k
    | none => hitList rest (i + 1) k

/-- The emitted lenses carrying identity `k`. -/
def filterKey (k : Nat × List Char) (cs : List CodeLens) : List CodeLens :=
  cs.filter (fun c => decide (lensKey c = k))

/-! ## Command resolver (extension.ts) -/

/-- Path of the manifest inside ancestor directory `dir`. -/
def cargoTomlAt (dir : List Char) : List Char := dir ++ "/Cargo.toml".toList

/-- Path of the manifest at the workspace root. -/
def rootCargoToml : List Char := "Cargo.toml".toList

/-- The pattern `name\s*=\s*"([^"]+)"` tried at one starting position,
returning the capture. -/
def nameAssignAt (l : List Char) : Option (List Char) :=
  match dropPre "name".toList l with
  | none => none
  | some r1 =>
    match dropPre "=".toList (r1.dropWhile isWsChar) with
    | none => none
    | some r2 =>
      match dropPre "\"".toList (r2.dropWhile isWsChar) with
      | none => none
      | some r3 =>
        let v := r3.takeWhile (fun c => c != '"')
        if v.isEmpty then none
        else if isPre "\"".toList (r3.dropWhile (fun c => c != '"')) then some v
        else none

/-- One repetition `[^\[]*\n` of the lazy group in the package-name
regex: consume up to and including the next newline, failing on `[`
or end of text. -/
def skipChunk : List Char → Option (List Char)
  | [] => none
  | c :: rest =>
    if c = '[' then none
    else if c = '\n' then some rest
    else skipChunk rest

/-- Fueled search over the line-start positions reachable through
`[^\[]*\n` repetitions, tried farthest first: the outer star is lazy,
but each repetition's inner `[^\[]*` is greedy, so on failure of the
sequel the engine reaches the position after the last newline of the
`[`-free region before any nearer one.  `scanTailF n l` tries the
sequel at every position after a newline of the `[`-free prefix of `l`,
farthest first, returning the first capture. -/
def scanTailF : Nat → List Char → Option (List Char)
  | 0, _ => none
  | n + 1, l =>
    match skipChunk l with
    | none => none
    | some r =>
      match scanTailF n r with
      | some v => some v
      | none => nameAssignAt r

/-- `scanTailF` with enough fuel to be total. -/
def scanTail (l : List Char) : Option (List Char) := scanTailF (l.length + 1) l

/-- The whole region search `(?:[^\[]*\n)*?name\s*=\s*"([^"]+)"`: the
lazy star first tries zero repetitions (the sequel at the resume
position itself), then the after-newline positions farthest first. -/
def scanRegion (l : List Char) : Option (List Char) :=
  match nameAssignAt l with
  | some v => some v
  | none => scanTail l

/-- `\[package\]\s*\n` with backtracking: the engine resumes right
after the last newline of the whitespace run following the header, and
all other backtracking choices are equivalent. -/
def afterPkgHeader (r : List Char) : Option (List Char) :=
  let w := r.takeWhile isWsChar
  if '\n' ∈ w then
    some ((w.reverse.takeWhile (fun c => c != '\n')).reverse ++ r.dropWhile isWsChar)
  else none

/-- Try the package-name regex at every starting position, left to
right. -/
def extractGo : List Char → Option (List Char)
  | [] => none
  | c :: rest =>
    match dropPre "[package]".toList (c :: rest) with
    | some r =>
      match afterPkgHeader r with
      | some resume =>
        match scanRegion resume with
        | some v => some v
        | none => extractGo rest
      | none => extractGo rest
    | none => extractGo rest

/-- `cargoTomlText.match(/\[package\]\s*\n(?:[^\[]*\n)*?name\s*=\s*"([^"]+)"/)`,
returning the first capture group. -/
def extractPackageName (txt : List Char) : Option (List Char) := extractGo txt

/-- Read the manifest of the ancestor made of the first `i` path
segments and extract a package name; `none` covers both a failed read
and a manifest without a package-name declaration, and in both cases
the caller continues the walk. -/
def tryDir (fs : List Char → Option (List Char)) (parts : List (List Char)) (i : Nat) :
    Option (List Char) :=
  (fs (cargoTomlAt (joinWith '/' (parts.take i)))).bind extractPackageName

/-- The loop `for (let i = pathParts.length - 1; i > 0; i--)` of
`findPackageForFile`. -/
def findPackageLoop (fs : List Char → Option (List Char)) (parts : List (List Char)) :
    Nat → Option (List Char)
  | 0 => none
  | i + 1 =>
    match tryDir fs parts (i + 1) with
    | some nm => some nm
    | none => findPackageLoop fs parts i

/-- `findPackageForFile` (extension.ts): walk ancestor directories from
the file's immediate parent outward, excluding the project root. -/
def findPackageForFile (fs : List Char → Option (List Char)) (relativePath : List Char) :
    Option (List Char) :=
  let pathParts := splitOnChar '/' relativePath
  findPackageLoop fs pathParts (pathParts.length - 1)

/-- ECMAScript GetSubstitution for a string search value: expand the
replacement patterns in the replacement text. `$$` yields `$`; `$&`
yields the matched substring; a dollar followed by the backquote
character (code 96) yields the text before the match; a dollar
followed by the single-quote character (code 39) yields the text after
the match; since a string search has no capture groups, `$n` and
`$<name>` stay literal, as does any other dollar. -/
def expandDollar (matched before after : List Char) : List Char → List Char
  | [] => []
  | c :: rest =>
    if c = '$' then
      match rest with
      | [] => ['$']
      | d :: rest2 =>
        if d = '$' then '$' :: expandDollar matched before after rest2
        else if d = '&' then matched ++ expandDollar matched before after rest2
        else if d = Char.ofNat 96 then before ++ expandDollar matched before after rest2
        else if d = Char.ofNat 39 then after ++ expandDollar matched before after rest2
        else '$' :: d :: expandDollar matched before after rest2
    else c :: expandDollar matched before after rest

/-- JavaScript `String.prototype.replace` with a string pattern applied
to the suffix `s` of the subject, `before` being the part already
passed: replace the first occurrence only, expanding replacement
patterns in the replacement text; no occurrence leaves the string
unchanged. -/
def replaceFirstGo (pat repl : List Char) : List Char → List Char → List Char
  | before, [] =>
    match dropPre pat [] with
    | some t => expandDollar pat before t repl ++ t
    | none => []
  | before, c :: rest =>
    match dropPre pat (c :: rest) with
    | some t => expandDollar pat before t repl ++ t
    | none => c :: replaceFirstGo pat repl (before ++ [c]) rest

/-- JavaScript `String.prototype.replace` with a string pattern. -/
def replaceFirst (pat repl s : List Char) : List Char := replaceFirstGo pat repl [] s

/-- The canonical sub-command recognized by the resolver. -/
def canonicalCmd : List Char := "cargo run --bin preview".toList

/-- The bare run verb recognized by the resolver. -/
def bareRunCmd : List Char := "cargo run".toList

/-- The workspace marker looked up in the root manifest. -/
def workspaceMarker : List Char := "[workspace]".toList

/-- `buildCargoCommand` (extension.ts). -/
def buildCargoCommand (fs : List Char → Option (List Char))
    (baseCommand relativePath : List Char) : List Char :=
  match fs rootCargoToml with
  | none => baseCommand
  | some txt =>
    if containsList workspaceMarker txt then
      match findPackageForFile fs relativePath with
      | some packageName =>
        if containsList canonicalCmd baseCommand then
          replaceFirst canonicalCmd
            ("cargo run -p ".toList ++ packageName ++ " --bin preview".toList) baseCommand
        else if containsList bareRunCmd baseCommand then
          replaceFirst bareRunCmd ("cargo run -p ".toList ++ packageName) baseCommand
        else baseCommand
      | none => baseCommand
    else baseCommand

/-! ## Declarative marker languages (for the refinement claims) -/

/-- The strings accepted by the stateless marker pattern: the bare
marker, or the marker with a parenthesized run of non-`)` characters,
possibly empty. -/
def IsStatelessMarker (m : List Char) : Prop :=
  m = "#[snowscape::stateless]".toList ∨
  ∃ p, (∀ c ∈ p, c ≠ ')') ∧
    m = "#[snowscape::stateless(".toList ++ p ++ ")]".toList

/-- The strings accepted by the stateful marker pattern: the marker with
a mandatory parenthesized run of non-`)` characters, possibly empty. -/
def IsStatefulMarker (m : List Char) : Prop :=
  ∃ p, (∀ c ∈ p, c ≠ ')') ∧
    m = "#[snowscape::stateful(".toList ++ p ++ ")]".toList

/-- A block of manifest lines, each terminated by a newline. -/
def linesBlock : List (List Char) → List Char
  | [] => []
  | l :: ls => l ++ '\n' :: linesBlock ls

/-- A concrete two-package workspace filesystem used by witnesses: the
root manifest declares a workspace and the directory `a/b` holds a
manifest naming the package `demo`. -/
def fsDemo : List Char → Option (List Char) := fun p =>
  if p = "Cargo.toml".toList then some "[workspace]\nmembers = [\"a\"]\n".toList
  else if p = "a/b/Cargo.toml".toList then some "[package]\nname = \"demo\"\n".toList
  else none

/-- A single-package filesystem: the root manifest has a `[package]`
section but no `[workspace]` marker. -/
def fsNoWs : List Char → Option (List Char) := fun p =>
  if p = "Cargo.toml".toList then some "[package]\nname = \"solo\"\n".toList else none

/-- A workspace filesystem whose package is named with a replacement
pattern: the manifest under `a` declares `name = "$&"`. -/
def fsDollar : List Char → Option (List Char) := fun p =>
  if p = "Cargo.toml".toList then some "[workspace]\n".toList
  else if p = "a/Cargo.toml".toList then some "[package]\nname = \"$&\"\n".toList
  else none

/-! ## Basic characterizations -/

theorem dropPre_eq_some (p : List Char) : ∀ l t, dropPre p l = some t ↔ l = p ++ t := by
  induction p with
  | nil => intro l t; simp [dropPre]
  | cons a as ih =>
    intro l t
    cases l with
    | nil => simp [dropPre]
    | cons b bs =>
      simp only [dropPre]
      by_cases h : a = b
      · subst h
        simp [ih]
      · simp only [if_neg h]
        constructor
        · intro hy; cases hy
        · intro hy
          injection hy with h1 h2
          exact absurd h1.symm h

theorem dropPre_self_append (p t : List Char) : dropPre p (p ++ t) = some t :=
  (dropPre_eq_some p (p ++ t) t).mpr rfl

theorem isPre_iff (p l : List Char) : isPre p l = true ↔ ∃ t, l = p ++ t := by
  unfold isPre
  rw [Option.isSome_iff_exists]
  constructor
  · rintro ⟨t, ht⟩
    exact ⟨t, (dropPre_eq_some p l t).mp ht⟩
  · rintro ⟨t, ht⟩
    exact ⟨t, (dropPre_eq_some p l t).mpr ht⟩

theorem containsAt_iff (p : List Char → Bool) :
    ∀ l, containsAt p l = true ↔ ∃ a b, l = a ++ b ∧ p b = true := by
  intro l
  induction l with
  | nil =>
    simp only [containsAt]
    constructor
    · intro h; exact ⟨[], [], rfl, h⟩
    · rintro ⟨a, b, hab, hp⟩
      rcases List.append_eq_nil.mp hab.symm with ⟨ha, hb⟩
      subst ha; subst hb; exact hp
  | cons c rest ih =>
    simp only [containsAt, Bool.or_eq_true]
    constructor
    · rintro (h | h)
      · exact ⟨[], c :: rest, rfl, h⟩
      · rcases ih.mp h with ⟨a, b, hab, hp⟩
        exact ⟨c :: a, b, by simp [hab], hp⟩
    · rintro ⟨a, b, hab, hp⟩
      cases a with
      | nil =>
        left
        simpa using hab ▸ hp
      | cons x a' =>
        right
        injection hab with h1 h2
        exact ih.mpr ⟨a', b, h2, hp⟩

theorem containsList_iff (pat l : List Char) :
    containsList pat l = true ↔ ∃ a b, l = a ++ pat ++ b := by
  unfold containsList
  rw [containsAt_iff]
  constructor
  · rintro ⟨a, b, hab, hp⟩
    rcases (isPre_iff pat b).mp hp with ⟨t, ht⟩
    exact ⟨a, t, by simp [hab, ht]⟩
  · rintro ⟨a, b, hab⟩
    refine ⟨a, pat ++ b, by simp [hab], ?_⟩
    exact (isPre_iff pat (pat ++ b)).mpr ⟨b, rfl⟩

theorem containsAt_append_left (p : List Char → Bool) (a s : List Char)
    (h : p s = true) : containsAt p (a ++ s) = true := by
  induction a with
  | nil =>
    cases s with
    | nil => simpa [containsAt] using h
    | cons c r => simpa [containsAt] using Or.inl h
  | cons x a' ih =>
    simp only [List.cons_append, containsAt, Bool.or_eq_true]
    exact Or.inr ih

/-! ## Marker pattern characterizations -/

theorem matchPayloadClose_eq_some :
    ∀ l r, matchPayloadClose l = some r ↔
      ∃ p, (∀ c ∈ p, c ≠ ')') ∧ l = p ++ ')' :: r := by
  intro l
  induction l with
  | nil =>
    intro r
    constructor
    · intro h; cases h
    · rintro ⟨p, _, hp⟩
      exact absurd hp (by simp)
  | cons c rest ih =>
    intro r
    simp only [matchPayloadClose]
    by_cases h : c = ')'
    · subst h
      simp only [if_pos rfl]
      constructor
      · intro hr
        injection hr with hr
        exact ⟨[], by simp, by simp [hr]⟩
      · rintro ⟨p, hall, hp⟩
        cases p with
        | nil =>
          injection hp with h1 h2
          simp [h2]
        | cons x p' =>
          injection hp with h1 h2
          exact absurd h1.symm (hall x (by simp))
    · rw [if_neg h, ih r]
      constructor
      · rintro ⟨p, hall, hp⟩
        refine ⟨c :: p, ?_, by simp [hp]⟩
        intro d hd
        rcases List.mem_cons.mp hd with rfl | hd
        · exact h
        · exact hall d hd
      · rintro ⟨p, hall, hp⟩
        cases p with
        | nil =>
          injection hp with h1 h2
          exact absurd h1 h
        | cons x p' =>
          injection hp with h1 h2
          subst h1
          exact ⟨p', fun d hd => hall d (List.mem_cons_of_mem _ hd), h2⟩

theorem statelessAt_iff (l : List Char) :
    statelessAt l = true ↔ ∃ m t, IsStatelessMarker m ∧ l = m ++ t := by
  have hdr : "#[snowscape::stateless]".toList =
      "#[snowscape::stateless".toList ++ "]".toList := by decide
  have hdrp : "#[snowscape::stateless(".toList =
      "#[snowscape::stateless".toList ++ "(".toList := by decide
  have hcl : (")]" : String).toList = ')' :: "]".toList := by decide
  constructor
  · intro h
    unfold statelessAt at h
    split at h
    · cases h
    · rename_i r hd
      have hlr : l = "#[snowscape::stateless".toList ++ r := (dropPre_eq_some _ _ _).mp hd
      by_cases hb : isPre "]".toList r = true
      · rcases (isPre_iff _ _).mp hb with ⟨t, ht⟩
        refine ⟨"#[snowscape::stateless]".toList, t, Or.inl rfl, ?_⟩
        rw [hlr, ht, hdr, List.append_assoc]
      · rw [if_neg hb] at h
        split at h
        · cases h
        · rename_i r2 hp
          have hr : r = "(".toList ++ r2 := (dropPre_eq_some _ _ _).mp hp
          split at h
          · cases h
          · rename_i r3 hm
            rcases (matchPayloadClose_eq_some _ _).mp hm with ⟨p, hall, hp2⟩
            rcases (isPre_iff _ _).mp h with ⟨t, ht⟩
            refine ⟨"#[snowscape::stateless(".toList ++ p ++ ")]".toList, t,
              Or.inr ⟨p, hall, rfl⟩, ?_⟩
            rw [hlr, hr, hp2, ht, hdrp, hcl]
            simp
  · rintro ⟨m, t, hm, rfl⟩
    rcases hm with rfl | ⟨p, hall, rfl⟩
    · have e : "#[snowscape::stateless]".toList ++ t =
          "#[snowscape::stateless".toList ++ (']' :: t) := by
        rw [hdr, List.append_assoc]; rfl
      unfold statelessAt
      rw [e, dropPre_self_append]
      have h2 : isPre [']'] (']' :: t) = true := (isPre_iff _ _).mpr ⟨t, rfl⟩
      simp [h2]
    · have e : ("#[snowscape::stateless(".toList ++ p ++ ")]".toList) ++ t =
          "#[snowscape::stateless".toList ++ ('(' :: (p ++ ')' :: ']' :: t)) := by
        rw [hdrp, hcl]
        simp
      unfold statelessAt
      rw [e, dropPre_self_append]
      have h5 : isPre [']'] ('(' :: (p ++ ')' :: ']' :: t)) = false := rfl
      have h6 : dropPre ['('] ('(' :: (p ++ ')' :: ']' :: t)) =
          some (p ++ ')' :: ']' :: t) := rfl
      have h3 : matchPayloadClose (p ++ ')' :: ']' :: t) = some (']' :: t) :=
        (matchPayloadClose_eq_some _ _).mpr ⟨p, hall, rfl⟩
      have h4 : isPre [']'] (']' :: t) = true := (isPre_iff _ _).mpr ⟨t, rfl⟩
      simp [h5, h6, h3, h4]

theorem statefulAt_iff (l : List Char) :
    statefulAt l = true ↔ ∃ m t, IsStatefulMarker m ∧ l = m ++ t := by
  have hcl : (")]" : String).toList = ')' :: "]".toList := by decide
  constructor
  · intro h
    unfold statefulAt at h
    split at h
    · cases h
    · rename_i r hd
      have hlr : l = "#[snowscape::stateful(".toList ++ r := (dropPre_eq_some _ _ _).mp hd
      split at h
      · cases h
      · rename_i r2 hm
        rcases (matchPayloadClose_eq_some _ _).mp hm with ⟨p, hall, hp2⟩
        rcases (isPre_iff _ _).mp h with ⟨t, ht⟩
        refine ⟨"#[snowscape::stateful(".toList ++ p ++ ")]".toList, t,
          ⟨p, hall, rfl⟩, ?_⟩
        rw [hlr, hp2, ht, hcl]
        simp
  · rintro ⟨m, t, hm, rfl⟩
    rcases hm with ⟨p, hall, rfl⟩
    have e : ("#[snowscape::stateful(".toList ++ p ++ ")]".toList) ++ t =
        "#[snowscape::stateful(".toList ++ (p ++ ')' :: ']' :: t) := by
      rw [hcl]
      simp
    unfold statefulAt
    rw [e, dropPre_self_append]
    have h3 : matchPayloadClose (p ++ ')' :: ']' :: t) = some (']' :: t) :=
      (matchPayloadClose_eq_some _ _).mpr ⟨p, hall, rfl⟩
    have h4 : isPre [']'] (']' :: t) = true := (isPre_iff _ _).mpr ⟨t, rfl⟩
    simp [h3, h4]

theorem containsStateless_iff (l : List Char) :
    containsStateless l = true ↔ ∃ a m b, IsStatelessMarker m ∧ l = a ++ m ++ b := by
  unfold containsStateless
  rw [containsAt_iff]
  constructor
  · rintro ⟨a, b, rfl, hp⟩
    rcases (statelessAt_iff b).mp hp with ⟨m, t, hm, rfl⟩
    exact ⟨a, m, t, hm, by simp⟩
  · rintro ⟨a, m, b, hm, rfl⟩
    refine ⟨a, m ++ b, by simp, ?_⟩
    exact (statelessAt_iff _).mpr ⟨m, b, hm, rfl⟩

theorem containsStateful_iff (l : List Char) :
    containsStateful l = true ↔ ∃ a m b, IsStatefulMarker m ∧ l = a ++ m ++ b := by
  unfold containsStateful
  rw [containsAt_iff]
  constructor
  · rintro ⟨a, b, rfl, hp⟩
    rcases (statefulAt_iff b).mp hp with ⟨m, t, hm, rfl⟩
    exact ⟨a, m, t, hm, by simp⟩
  · rintro ⟨a, m, b, hm, rfl⟩
    refine ⟨a, m ++ b, by simp, ?_⟩
    exact (statefulAt_iff _).mpr ⟨m, b, hm, rfl⟩

/-! ## Scan loop structure -/

theorem drop_get? {α : Type} : ∀ (n : Nat) (l : List α) (m : Nat),
    (l.drop n).get? m = l.get? (n + m) := by
  intro n
  induction n with
  | zero => intro l m; simp
  | succ k ih =>
    intro l m
    cases l with
    | nil => simp
    | cons x xs =>
      have e : k + 1 + m = (k + m) + 1 := by omega
      rw [List.drop_succ_cons, e, List.get?_cons_succ]
      exact ih xs m

theorem scanAux_key_not_processed :
    ∀ (p : List (List Char)) (i : Nat) (processed : List (Nat × List Char)) (c : CodeLens),
      c ∈ scanAux p i processed → lensKey c ∉ processed := by
  intro p
  induction p with
  | nil => intro i pr c hc; simp [scanAux] at hc
  | cons l rest ih =>
    intro i pr c hc
    simp only [scanAux] at hc
    split at hc
    · rename_i c' hl
      split at hc
      · exact ih _ _ _ hc
      · rename_i hmem
        rcases List.mem_cons.mp hc with rfl | hc
        · exact hmem
        · have h2 := ih _ _ _ hc
          intro hk
          exact h2 (List.mem_cons_of_mem _ hk)
    · exact ih _ _ _ hc

theorem scanAux_filter_eq :
    ∀ (p : List (List Char)) (i : Nat) (processed : List (Nat × List Char))
      (k : Nat × List Char) (i0 : Nat) (pt : PreviewType),
      (hitList p i k).head? = some (i0, pt) → k ∉ processed →
      filterKey k (scanAux p i processed) = [⟨k.1, k.2, pt⟩] := by
  intro p
  induction p with
  | nil => intro i pr k i0 pt h _; simp [hitList] at h
  | cons l rest ih =>
    intro i pr k i0 pt h hk
    simp only [hitList] at h
    simp only [scanAux]
    cases hl : lineHit l rest i with
    | none =>
      simp only [hl] at h
      simp only [hl]
      exact ih _ _ _ _ _ h hk
    | some c =>
      simp only [hl] at h
      simp only [hl]
      by_cases hck : lensKey c = k
      · rw [if_pos hck] at h
        simp only [List.head?_cons] at h
        injection h with h'
        injection h' with h1 h2
        have hnotmem : lensKey c ∉ pr := by rw [hck]; exact hk
        rw [if_neg hnotmem]
        unfold filterKey
        rw [List.filter_cons, if_pos (by simp [hck])]
        have htail : List.filter (fun c' => decide (lensKey c' = k))
            (scanAux rest (i + 1) (lensKey c :: pr)) = [] := by
          rw [List.filter_eq_nil_iff]
          intro a ha
          have h3 := scanAux_key_not_processed _ _ _ _ ha
          simp only [decide_eq_true_eq]
          intro hEq
          apply h3
          rw [hEq, ← hck]
          exact List.mem_cons_self _ _
        rw [htail]
        have hc : c = ⟨k.1, k.2, pt⟩ := by
          subst hck
          rw [← h2]
          cases c
          rfl
        rw [hc]
      · rw [if_neg hck] at h
        by_cases hmem : lensKey c ∈ pr
        · rw [if_pos hmem]
          exact ih _ _ _ _ _ h hk
        · rw [if_neg hmem]
          unfold filterKey
          rw [List.filter_cons, if_neg (by simp [hck])]
          refine ih _ _ _ _ _ h ?_
          intro hkmem
          rcases List.mem_cons.mp hkmem with h' | h'
          · exact hck h'.symm
          · exact hk h'

theorem findFunctionAux_spec :
    ∀ (p : List (List Char)) (j0 j : Nat) (nm : List Char),
      findFunctionAux p j0 = some (j, nm) →
      j0 ≤ j ∧ ∃ raw, p.get? (j - j0) = some raw ∧
        isFnDeclStart (jsTrim raw) = true ∧ fnNameSearch (jsTrim raw) = some nm := by
  intro p
  induction p with
  | nil => intro j0 j nm h; simp [findFunctionAux] at h
  | cons l rest ih =>
    intro j0 j nm h
    simp only [findFunctionAux] at h
    split at h
    · rcases ih (j0 + 1) j nm h with ⟨hle, raw, hget, hdecl, hname⟩
      refine ⟨by omega, raw, ?_, hdecl, hname⟩
      have e : j - j0 = (j - (j0 + 1)) + 1 := by omega
      rw [e, List.get?_cons_succ]
      exact hget
    · split at h
      · rename_i hskip hdecl
        cases hs : fnNameSearch (jsTrim l) with
        | none => rw [hs] at h; cases h
        | some nm' =>
          rw [hs] at h
          simp only [Option.map_some'] at h
          injection h with h'
          injection h' with h1 h2
          subst h1
          subst h2
          exact ⟨Nat.le_refl _, l, by simp, hdecl, hs⟩
      · cases h

theorem hitList_mem_spec :
    ∀ (p : List (List Char)) (i : Nat) (k : Nat × List Char) (x : Nat × PreviewType),
      x ∈ hitList p i k →
      i ≤ x.1 ∧ ∃ l, p.get? (x.1 - i) = some l ∧
        lineHit l (p.drop (x.1 - i + 1)) x.1 = some ⟨k.1, k.2, x.2⟩ := by
  intro p
  induction p with
  | nil => intro i k x hx; simp [hitList] at hx
  | cons l rest ih =>
    intro i k x hx
    simp only [hitList] at hx
    have tailStep : x ∈ hitList rest (i + 1) k →
        i ≤ x.1 ∧ ∃ l', (l :: rest).get? (x.1 - i) = some l' ∧
          lineHit l' ((l :: rest).drop (x.1 - i + 1)) x.1 = some ⟨k.1, k.2, x.2⟩ := by
      intro hx'
      rcases ih (i + 1) k x hx' with ⟨hle, l', hget, hhit⟩
      refine ⟨by omega, l', ?_, ?_⟩
      · have e : x.1 - i = (x.1 - (i + 1)) + 1 := by omega
        rw [e, List.get?_cons_succ]
        exact hget
      · have e : x.1 - i + 1 = (x.1 - (i + 1) + 1) + 1 := by omega
        rw [e, List.drop_succ_cons]
        exact hhit
    split at hx
    · rename_i c hl
      split at hx
      · rename_i hck
        rcases List.mem_cons.mp hx with rfl | hx
        · refine ⟨Nat.le_refl i, l, by simp, ?_⟩
          have e : i - i + 1 = 1 := by omega
          rw [e, List.drop_one, List.tail_cons]
          subst hck
          exact hl
        · exact tailStep hx
      · exact tailStep hx
    · exact tailStep hx

/-! ## Claim C1 -/

/-- C1: for every document text and every action-target identity
(declaration line index, function name) reached by one or more stacked
valid markers, a single scan emits exactly one action target with that
identity, and the target's annotation kind is the kind of the marker
detected first in top-to-bottom scan order. -/
theorem c1_dedup_first_marker_kind (text : List Char) (j : Nat) (nm : List Char)
    (i0 : Nat) (pt : PreviewType)
    (h : (hitList (splitLines text) 0 (j, nm)).head? = some (i0, pt)) :
    filterKey (j, nm) (provideCodeLenses text) = [⟨j, nm, pt⟩] :=
  scanAux_filter_eq (splitLines text) 0 [] (j, nm) i0 pt h (by simp)

/-- Witness for C1: a function at line 2 carrying a stacked stateful
marker (line 0) and stateless marker (line 1) yields exactly one
target, classified by the first marker (stateful). -/
theorem c1_dedup_first_marker_kind_witness :
    filterKey (2, "foo".toList)
      (provideCodeLenses
        "#[snowscape::stateful(x)]\n#[snowscape::stateless]\nfn foo() {}".toList) =
      [⟨2, "foo".toList, PreviewType.stateful⟩] :=
  c1_dedup_first_marker_kind _ 2 "foo".toList 0 PreviewType.stateful (by decide)

/-! ## Claim C6 -/

/-- C6: a function reached by exactly one valid marker (at line `i`)
yields exactly one action target, positioned at the declaration line
`j` — a strictly later line whose trimmed text begins with a function
declaration prefix — and not at the marker line. -/
theorem c6_single_marker_declaration_line (text : List Char) (i j : Nat)
    (nm : List Char) (pt : PreviewType)
    (h : hitList (splitLines text) 0 (j, nm) = [(i, pt)]) :
    filterKey (j, nm) (provideCodeLenses text) = [⟨j, nm, pt⟩] ∧ i < j ∧
      ∃ raw, (splitLines text).get? j = some raw ∧ isFnDeclStart (jsTrim raw) = true := by
  have hmem : (i, pt) ∈ hitList (splitLines text) 0 (j, nm) := by
    rw [h]
    exact List.mem_cons_self _ _
  rcases hitList_mem_spec _ 0 (j, nm) (i, pt) hmem with ⟨hle, l, hget, hhit⟩
  simp only [Nat.sub_zero] at hget hhit
  have hfa : findFunctionAux ((splitLines text).drop (i + 1)) (i + 1) = some (j, nm) := by
    cases hf : findFunctionAux ((splitLines text).drop (i + 1)) (i + 1) with
    | none => simp [lineHit, hf] at hhit
    | some jn =>
      obtain ⟨j', nm'⟩ := jn
      simp only [lineHit, hf] at hhit
      split at hhit
      · injection hhit with h'
        injection h' with e1 e2 e3
        rw [e1, e2]
      · cases hhit
  rcases findFunctionAux_spec _ (i + 1) j nm hfa with ⟨hle2, raw, hget2, hdecl, hname⟩
  have hgr : (splitLines text).get? j = some raw := by
    rw [drop_get?] at hget2
    have e : i + 1 + (j - (i + 1)) = j := by omega
    rw [e] at hget2
    exact hget2
  refine ⟨?_, by omega, raw, hgr, hdecl⟩
  exact scanAux_filter_eq _ 0 [] (j, nm) i pt (by rw [h]; rfl) (by simp)

/-- Witness for C6: one stateless marker at line 0, with a blank line
and a comment line in between, produces exactly one target at the
declaration line 3. -/
theorem c6_single_marker_declaration_line_witness :
    filterKey (3, "foo".toList)
        (provideCodeLenses "#[snowscape::stateless]\n\n// note\nfn foo() {}".toList) =
      [⟨3, "foo".toList, PreviewType.stateless⟩] ∧ 0 < 3 ∧
      ∃ raw, (splitLines "#[snowscape::stateless]\n\n// note\nfn foo() {}".toList).get? 3 =
        some raw ∧ isFnDeclStart (jsTrim raw) = true :=
  c6_single_marker_declaration_line _ 0 3 "foo".toList PreviewType.stateless (by decide)

/-! ## Claims C8 and C10 -/

theorem containsStateful_paren (l : List Char) (h : containsStateful l = true) :
    ')' ∈ l := by
  rcases (containsStateful_iff l).mp h with ⟨a, m, b, ⟨p, hall, rfl⟩, rfl⟩
  simp

theorem mem_of_mem_dropWhile {p : Char → Bool} :
    ∀ {l : List Char} {c : Char}, c ∈ l.dropWhile p → c ∈ l := by
  intro l
  induction l with
  | nil => intro c h; simp at h
  | cons x xs ih =>
    intro c h
    rw [List.dropWhile_cons] at h
    by_cases hx : p x = true
    · rw [if_pos hx] at h
      exact List.mem_cons_of_mem _ (ih h)
    · rw [if_neg hx] at h
      exact h

theorem jsTrim_mem {c : Char} {l : List Char} (h : c ∈ jsTrim l) : c ∈ l := by
  unfold jsTrim at h
  rw [List.mem_reverse] at h
  have h2 := mem_of_mem_dropWhile h
  rw [List.mem_reverse] at h2
  exact mem_of_mem_dropWhile h2

/-- C8: a line containing no `)` at all — in particular one carrying a
stateful marker whose payload parenthesis is never closed — fails the
mandatory-payload pattern entirely: it is not recognized as a stateful
marker, and (unless a stateless marker also occurs on it) the scan
iteration for that line produces no action target. -/
theorem c8_unbalanced_stateful_not_recognized (line : List Char) (h : ')' ∉ line) :
    containsStateful (jsTrim line) = false ∧
    (containsStateless (jsTrim line) = false →
      ∀ (rest : List (List Char)) (i : Nat), lineHit line rest i = none) := by
  have hsf : containsStateful (jsTrim line) = false := by
    cases hcs : containsStateful (jsTrim line) with
    | false => rfl
    | true => exact absurd (jsTrim_mem (containsStateful_paren _ hcs)) h
  refine ⟨hsf, ?_⟩
  intro hsl rest i
  simp [lineHit, hsl, hsf]

/-- Witness for C8: the marker line `#[snowscape::stateful(broken]` is
not recognized and yields no action target. -/
theorem c8_unbalanced_stateful_not_recognized_witness :
    containsStateful (jsTrim "#[snowscape::stateful(broken]".toList) = false ∧
    (containsStateless (jsTrim "#[snowscape::stateful(broken]".toList) = false →
      ∀ (rest : List (List Char)) (i : Nat),
        lineHit "#[snowscape::stateful(broken]".toList rest i = none) :=
  c8_unbalanced_stateful_not_recognized _ (by decide)

/-! ## Claim C10 -/

theorem dropWhile_append_keep (pr : Char → Bool) :
    ∀ (a s : List Char) (c : Char), s.head? = some c → pr c = false →
      ∃ a', List.dropWhile pr (a ++ s) = a' ++ s := by
  intro a
  induction a with
  | nil =>
    intro s c hc hp
    refine ⟨[], ?_⟩
    cases s with
    | nil => cases hc
    | cons x xs =>
      injection hc with hc
      subst hc
      simp [List.dropWhile_cons, hp]
  | cons y a1 ih =>
    intro s c hc hp
    by_cases hy : pr y = true
    · rcases ih s c hc hp with ⟨a2, ha⟩
      exact ⟨a2, by simp [List.dropWhile_cons, hy, ha]⟩
    · exact ⟨y :: a1, by simp [List.dropWhile_cons, hy]⟩

theorem jsTrim_stateless_marker (a b : List Char) :
    ∃ a' b', jsTrim (a ++ "#[snowscape::stateless]".toList ++ b) =
      a' ++ "#[snowscape::stateless]".toList ++ b' := by
  obtain ⟨a', ha⟩ :=
    dropWhile_append_keep isWsChar a ("#[snowscape::stateless]".toList ++ b) '#' rfl rfl
  obtain ⟨b2, hb⟩ := dropWhile_append_keep isWsChar b.reverse
    ("#[snowscape::stateless]".toList.reverse ++ a'.reverse) ']' rfl rfl
  refine ⟨a', b2.reverse, ?_⟩
  unfold jsTrim
  rw [List.append_assoc, ha, ← List.append_assoc, List.reverse_append, List.reverse_append,
    List.append_assoc, hb]
  simp

/-- C10: marker recognition is a substring test on the trimmed line: a
line formed by any text around the stateless marker — such as a
line-comment prefix — is still treated as an annotation line, and the
scan of a two-line document with such a line above a function
declaration emits an action target for that function. -/
theorem c10_marker_substring_recognized (pre suf : List Char) :
    containsStateless (jsTrim (pre ++ "#[snowscape::stateless]".toList ++ suf)) = true ∧
    scanLines [pre ++ "#[snowscape::stateless]".toList ++ suf, "fn foo() {}".toList] =
      [⟨1, "foo".toList, PreviewType.stateless⟩] := by
  have h1 : containsStateless
      (jsTrim (pre ++ "#[snowscape::stateless]".toList ++ suf)) = true := by
    obtain ⟨a', b', he⟩ := jsTrim_stateless_marker pre suf
    rw [he]
    unfold containsStateless
    rw [List.append_assoc]
    exact containsAt_append_left _ _ _
      ((statelessAt_iff _).mpr ⟨"#[snowscape::stateless]".toList, b', Or.inl rfl, rfl⟩)
  refine ⟨h1, ?_⟩
  have hfa : findFunctionAux ["fn foo() {}".toList] 1 = some (1, "foo".toList) := by decide
  have hl0 : lineHit (pre ++ "#[snowscape::stateless]".toList ++ suf)
      ["fn foo() {}".toList] 0 = some ⟨1, "foo".toList, PreviewType.stateless⟩ := by
    simp only [lineHit, hfa, h1, Bool.true_or, eq_self_iff_true, if_true]
  have hl1 : lineHit "fn foo() {}".toList [] 1 = none := by decide
  simp only [scanLines, scanAux, hl0, hl1]
  rw [if_neg (List.not_mem_nil _)]

/-! ## Claim C7 -/

/-- Counterexample to C7: the code classifies `#[snowscape::stateful()]`
— whose mandatory parenthesized payload is empty — as a stateful
marker, and classifies `#[snowscape::stateless(cfg)]` — which carries a
non-empty parenthesized payload — as stateless; so kind is not
"stateful exactly when a non-empty payload is present". -/
theorem c7_kind_syntax_counterexample :
    scanLines ["#[snowscape::stateful()]".toList, "fn f() {}".toList] =
      [⟨1, "f".toList, PreviewType.stateful⟩] ∧
    "#[snowscape::stateful()]".toList =
      "#[snowscape::stateful(".toList ++ [] ++ ")]".toList ∧
    scanLines ["#[snowscape::stateless(cfg)]".toList, "fn g() {}".toList] =
      [⟨1, "g".toList, PreviewType.stateless⟩] := by decide

theorem lineHit_stateless_wins (l : List Char) (rest : List (List Char)) (i : Nat)
    (c : CodeLens) (hA : containsStateless (jsTrim l) = true)
    (hl : lineHit l rest i = some c) :
    c.previewType = PreviewType.stateless := by
  cases hf : findFunctionAux rest (i + 1) with
  | none => simp [lineHit, hf] at hl
  | some jn =>
    obtain ⟨j', nm'⟩ := jn
    obtain ⟨cl, cf, cp⟩ := c
    simp [lineHit, hf, hA] at hl
    exact hl.2.2.symm

/-- C7 (amended): annotation kind is determined purely by the marker's
surface syntax, as follows: a line is recognized as carrying a
stateless marker exactly when it contains the stateless token either
bare or with an optional parenthesized payload of non-`)` characters
(possibly empty, possibly not); and as carrying a stateful marker
exactly when it contains the stateful token with a mandatory
parenthesized payload of non-`)` characters, which may be empty; and
when a line matches the stateless pattern — in particular when both
kinds occur on it — any target it emits is classified stateless. -/
theorem c7_kind_surface_syntax_amended (l : List Char) :
    (containsStateless l = true ↔ ∃ a m b, IsStatelessMarker m ∧ l = a ++ m ++ b) ∧
    (containsStateful l = true ↔ ∃ a m b, IsStatefulMarker m ∧ l = a ++ m ++ b) ∧
    (∀ (rest : List (List Char)) (i : Nat) (c : CodeLens),
      containsStateless (jsTrim l) = true → lineHit l rest i = some c →
      c.previewType = PreviewType.stateless) :=
  ⟨containsStateless_iff l, containsStateful_iff l,
    fun rest i c hA hl => lineHit_stateless_wins l rest i c hA hl⟩

/-! ## Command resolver: the ancestor walk -/

theorem findPackageLoop_some_iff (fs : List Char → Option (List Char))
    (parts : List (List Char)) :
    ∀ (n : Nat) (nm : List Char),
      findPackageLoop fs parts n = some nm ↔
        ∃ i, 1 ≤ i ∧ i ≤ n ∧ tryDir fs parts i = some nm ∧
          ∀ j, i < j → j ≤ n → tryDir fs parts j = none := by
  intro n
  induction n with
  | zero =>
    intro nm
    constructor
    · intro h; cases h
    · rintro ⟨i, h1, h2, _, _⟩; omega
  | succ k ih =>
    intro nm
    simp only [findPackageLoop]
    cases ht : tryDir fs parts (k + 1) with
    | some v =>
      constructor
      · intro h
        injection h with h
        subst h
        exact ⟨k + 1, by omega, by omega, ht, fun j hj1 hj2 => by omega⟩
      · rintro ⟨i, hi1, hi2, hsome, hafter⟩
        by_cases hik : i = k + 1
        · subst hik
          rw [ht] at hsome
          show some v = some nm
          exact hsome
        · have hnone : tryDir fs parts (k + 1) = none :=
            hafter (k + 1) (by omega) (by omega)
          rw [ht] at hnone
          cases hnone
    | none =>
      rw [ih nm]
      constructor
      · rintro ⟨i, hi1, hi2, hsome, hafter⟩
        refine ⟨i, hi1, by omega, hsome, ?_⟩
        intro j hj1 hj2
        by_cases hjk : j = k + 1
        · subst hjk; exact ht
        · exact hafter j hj1 (by omega)
      · rintro ⟨i, hi1, hi2, hsome, hafter⟩
        have hik : i ≤ k := by
          by_contra hgt
          have he : i = k + 1 := by omega
          subst he
          rw [ht] at hsome
          cases hsome
        exact ⟨i, hi1, hik, hsome, fun j hj1 hj2 => hafter j hj1 (by omega)⟩

theorem findPackageLoop_none_iff (fs : List Char → Option (List Char))
    (parts : List (List Char)) :
    ∀ n, findPackageLoop fs parts n = none ↔
      ∀ i, 1 ≤ i → i ≤ n → tryDir fs parts i = none := by
  intro n
  induction n with
  | zero =>
    constructor
    · intro _ i h1 h2; omega
    · intro _; rfl
  | succ k ih =>
    simp only [findPackageLoop]
    cases ht : tryDir fs parts (k + 1) with
    | some v =>
      constructor
      · intro h; cases h
      · intro hall
        have h2 := hall (k + 1) (by omega) (by omega)
        rw [ht] at h2
        cases h2
    | none =>
      rw [ih]
      constructor
      · intro hall j hj1 hj2
        by_cases hjk : j = k + 1
        · subst hjk; exact ht
        · exact hall j hj1 (by omega)
      · intro hall i h1 h2
        exact hall i h1 (by omega)

theorem extractGo_none_of_not_contains :
    ∀ t, containsList "[package]".toList t = false → extractGo t = none := by
  intro t
  induction t with
  | nil => intro _; rfl
  | cons c rest ih =>
    intro h
    simp only [containsList, containsAt, Bool.or_eq_false_iff] at h
    obtain ⟨h1, h2⟩ := h
    have hd : dropPre "[package]".toList (c :: rest) = none := by
      cases hdp : dropPre "[package]".toList (c :: rest) with
      | none => rfl
      | some r =>
        unfold isPre at h1
        rw [hdp] at h1
        cases h1
    simp only [extractGo, hd]
    exact ih h2

/-! ## Claim C2 -/

/-- C2: the manifest locator walks ancestor directories of the file
from the immediate parent (index `length - 1`) outward, excluding the
project root (index `0`): it returns `some nm` exactly when some
ancestor index `i ≥ 1` yields the name `nm` while every nearer ancestor
yields nothing (read failure and failed extraction are the same
`none`), and it returns `none` — never an error — exactly when every
walked ancestor yields nothing; a manifest without a `[package]`
section never yields a name. -/
theorem c2_manifest_walk (fs : List Char → Option (List Char)) (rel : List Char) :
    (∀ nm, findPackageForFile fs rel = some nm ↔
      ∃ i, 1 ≤ i ∧ i ≤ (splitOnChar '/' rel).length - 1 ∧
        tryDir fs (splitOnChar '/' rel) i = some nm ∧
        ∀ j, i < j → j ≤ (splitOnChar '/' rel).length - 1 →
          tryDir fs (splitOnChar '/' rel) j = none) ∧
    (findPackageForFile fs rel = none ↔
      ∀ i, 1 ≤ i → i ≤ (splitOnChar '/' rel).length - 1 →
        tryDir fs (splitOnChar '/' rel) i = none) ∧
    (∀ t, containsList "[package]".toList t = false → extractPackageName t = none) := by
  refine ⟨?_, ?_, ?_⟩
  · intro nm
    exact findPackageLoop_some_iff fs _ _ nm
  · exact findPackageLoop_none_iff fs _ _
  · intro t ht
    exact extractGo_none_of_not_contains t ht

/-! ## Claims C9 and C5 -/

theorem splitOnChar_eq_single (sep : Char) :
    ∀ l, sep ∉ l → splitOnChar sep l = [l] := by
  intro l
  induction l with
  | nil => intro _; rfl
  | cons c rest ih =>
    intro h
    have hc : ¬(c = sep) := by
      intro e
      subst e
      exact h (List.mem_cons_self _ _)
    simp only [splitOnChar, if_neg hc]
    rw [ih (fun hm => h (List.mem_cons_of_mem _ hm))]

/-- C9: a relative path with no directory separator (a file directly in
the project root) makes the locator walk perform zero iterations and
return `none`, so the resolver returns the base command unchanged for
such files, whatever the filesystem contents — in particular even when
the root manifest declares a workspace. -/
theorem c9_root_file_no_walk (fs : List Char → Option (List Char))
    (base rel : List Char) (h : '/' ∉ rel) :
    findPackageForFile fs rel = none ∧ buildCargoCommand fs base rel = base := by
  have hfind : findPackageForFile fs rel = none := by
    unfold findPackageForFile
    rw [splitOnChar_eq_single '/' rel h]
    rfl
  refine ⟨hfind, ?_⟩
  unfold buildCargoCommand
  cases hr : fs rootCargoToml with
  | none => rfl
  | some txt =>
    by_cases hw : containsList workspaceMarker txt = true
    · simp [hw, hfind]
    · simp [hw]

/-- Witness for C9: a root-level file in the workspace of `fsDemo`
yields no package and an unchanged command. -/
theorem c9_root_file_no_walk_witness :
    findPackageForFile fsDemo "main.rs".toList = none ∧
    buildCargoCommand fsDemo "cargo run --bin preview".toList "main.rs".toList =
      "cargo run --bin preview".toList :=
  c9_root_file_no_walk fsDemo _ _ (by decide)

/-- C5: when the root manifest is unreadable or contains no
`[workspace]` marker, the resolver returns the base command unchanged,
for every base command and file path. -/
theorem c5_no_workspace_passthrough (fs : List Char → Option (List Char))
    (base rel : List Char)
    (h : ∀ t, fs rootCargoToml = some t → containsList workspaceMarker t = false) :
    buildCargoCommand fs base rel = base := by
  unfold buildCargoCommand
  cases hr : fs rootCargoToml with
  | none => rfl
  | some txt => simp [h txt hr]

/-- Witness for C5: a single-package root manifest leaves the command
untouched. -/
theorem c5_no_workspace_passthrough_witness :
    buildCargoCommand fsNoWs "cargo run --bin preview".toList "a/b/c.rs".toList =
      "cargo run --bin preview".toList :=
  c5_no_workspace_passthrough fsNoWs _ _ (by
    intro t ht
    have he : fsNoWs rootCargoToml = some "[package]\nname = \"solo\"\n".toList := by decide
    rw [he] at ht
    injection ht with ht
    subst ht
    decide)

/-- Witness-style instance for C2: in the concrete workspace `fsDemo`,
the walk for a file three directories deep finds `demo` two levels up. -/
theorem c2_manifest_walk_witness :
    findPackageForFile fsDemo "a/b/c/file.rs".toList = some "demo".toList :=
  ((c2_manifest_walk fsDemo "a/b/c/file.rs".toList).1 "demo".toList).mpr
    ⟨2, by decide, by decide, by decide, by
      intro j hj1 hj2
      have hlen : (splitOnChar '/' ("a/b/c/file.rs".toList)).length = 4 := by decide
      rw [hlen] at hj2
      have hj : j = 3 := by omega
      subst hj
      decide⟩

/-! ## Claim C3 -/

theorem expandDollar_no_dollar (m b a : List Char) :
    ∀ repl, '$' ∉ repl → expandDollar m b a repl = repl := by
  intro repl
  induction repl with
  | nil => intro _; rfl
  | cons c rest ih =>
    intro h
    have hc : ¬(c = '$') := by
      intro e
      subst e
      exact h (List.mem_cons_self _ _)
    rw [expandDollar.eq_def]
    dsimp only
    rw [if_neg hc, ih (fun hm => h (List.mem_cons_of_mem _ hm))]

theorem replaceFirstGo_decomp (pat repl : List Char) :
    ∀ (s before : List Char), containsList pat s = true →
      ∃ a b, s = a ++ pat ++ b ∧
        replaceFirstGo pat repl before s =
          a ++ expandDollar pat (before ++ a) b repl ++ b := by
  intro s
  induction s with
  | nil =>
    intro before h
    simp only [containsList, containsAt] at h
    rcases (isPre_iff _ _).mp h with ⟨t, ht⟩
    obtain ⟨hp, ht2⟩ := List.append_eq_nil.mp ht.symm
    subst hp
    subst ht2
    refine ⟨[], [], rfl, ?_⟩
    simp [replaceFirstGo, dropPre]
  | cons c rest ih =>
    intro before h
    cases hd : dropPre pat (c :: rest) with
    | some t =>
      refine ⟨[], t, ?_, ?_⟩
      · simpa using (dropPre_eq_some _ _ _).mp hd
      · simp only [replaceFirstGo, hd]
        simp
    | none =>
      have h1 : isPre pat (c :: rest) = false := by
        unfold isPre
        rw [hd]
        rfl
      have h2 : containsList pat rest = true := by
        simp only [containsList, containsAt, h1, Bool.false_or] at h
        exact h
      rcases ih (before ++ [c]) h2 with ⟨a, b, hab, hrep⟩
      refine ⟨c :: a, b, by simp [hab], ?_⟩
      simp only [replaceFirstGo, hd, hrep]
      simp

theorem replaceFirst_decomp (pat repl s : List Char) (h : containsList pat s = true) :
    ∃ a b, s = a ++ pat ++ b ∧
      replaceFirst pat repl s = a ++ expandDollar pat a b repl ++ b := by
  rcases replaceFirstGo_decomp pat repl s [] h with ⟨a, b, hab, hrep⟩
  exact ⟨a, b, hab, by simpa using hrep⟩

theorem containsList_of_append_part (p q s : List Char)
    (h : containsList (p ++ q) s = true) : containsList p s = true := by
  rcases (containsList_iff _ _).mp h with ⟨a, b, hab⟩
  exact (containsList_iff _ _).mpr ⟨a, q ++ b, by simp [hab]⟩

/-- Counterexample to C3: the program's replace expands ECMAScript
replacement patterns in the spliced text, so for the reachable package
name `$&` the canonical sub-command is not replaced by the literal
`cargo run -p $& --bin preview`: the `$&` expands to the matched
sub-command itself. -/
theorem c3_replacement_pattern_counterexample :
    findPackageForFile fsDollar "a/file.rs".toList = some "$&".toList ∧
    buildCargoCommand fsDollar "cargo run --bin preview".toList "a/file.rs".toList =
      "cargo run -p cargo run --bin preview --bin preview".toList ∧
    "cargo run -p cargo run --bin preview --bin preview".toList ≠
      "cargo run -p ".toList ++ "$&".toList ++ " --bin preview".toList := by decide

/-- C3 (amended): when the root manifest declares a workspace and a
package name containing no `$` character is resolved, the resolver
rewrites the base command by cases: if it contains the canonical
sub-command, that first occurrence is replaced by the package-scoped
form; otherwise if it contains the bare run verb, the package flag is
spliced in at the verb's first occurrence; otherwise the base command
is returned unchanged.  (For a name containing replacement patterns
such as `$&`, the program instead expands them — see the
counterexample.) -/
theorem c3_command_rewrite (fs : List Char → Option (List Char))
    (base rel name t : List Char)
    (hroot : fs rootCargoToml = some t)
    (hws : containsList workspaceMarker t = true)
    (hname : findPackageForFile fs rel = some name)
    (hdollar : '$' ∉ name) :
    (containsList canonicalCmd base = true →
      ∃ a b, base = a ++ canonicalCmd ++ b ∧
        buildCargoCommand fs base rel =
          a ++ ("cargo run -p ".toList ++ name ++ " --bin preview".toList) ++ b) ∧
    (containsList canonicalCmd base = false → containsList bareRunCmd base = true →
      ∃ a b, base = a ++ bareRunCmd ++ b ∧
        buildCargoCommand fs base rel = a ++ ("cargo run -p ".toList ++ name) ++ b) ∧
    (containsList bareRunCmd base = false → buildCargoCommand fs base rel = base) := by
  have hrd1 : '$' ∉ ("cargo run -p ".toList ++ name ++ " --bin preview".toList) := by
    intro hm
    rcases List.mem_append.mp hm with hm1 | hm2
    · rcases List.mem_append.mp hm1 with hma | hmb
      · exact absurd hma (by decide)
      · exact hdollar hmb
    · exact absurd hm2 (by decide)
  have hrd2 : '$' ∉ ("cargo run -p ".toList ++ name) := by
    intro hm
    rcases List.mem_append.mp hm with hma | hmb
    · exact absurd hma (by decide)
    · exact hdollar hmb
  have hb : buildCargoCommand fs base rel =
      (if containsList canonicalCmd base then
        replaceFirst canonicalCmd
          ("cargo run -p ".toList ++ name ++ " --bin preview".toList) base
      else if containsList bareRunCmd base then
        replaceFirst bareRunCmd ("cargo run -p ".toList ++ name) base
      else base) := by
    simp only [buildCargoCommand, hroot, hws, if_true, hname]
  refine ⟨?_, ?_, ?_⟩
  · intro hc
    rcases replaceFirst_decomp canonicalCmd
      ("cargo run -p ".toList ++ name ++ " --bin preview".toList) base hc with ⟨a, b, hab, hrep⟩
    refine ⟨a, b, hab, ?_⟩
    rw [hb, if_pos hc, hrep, expandDollar_no_dollar canonicalCmd a b _ hrd1]
  · intro hc hbr
    rcases replaceFirst_decomp bareRunCmd
      ("cargo run -p ".toList ++ name) base hbr with ⟨a, b, hab, hrep⟩
    refine ⟨a, b, hab, ?_⟩
    rw [hb, if_neg (by simp [hc]), if_pos hbr, hrep,
      expandDollar_no_dollar bareRunCmd a b _ hrd2]
  · intro hbr
    have hc : containsList canonicalCmd base = false := by
      cases hcc : containsList canonicalCmd base with
      | false => rfl
      | true =>
        have he : canonicalCmd = bareRunCmd ++ " --bin preview".toList := by decide
        have h2 := containsList_of_append_part bareRunCmd " --bin preview".toList base
          (he ▸ hcc)
        rw [hbr] at h2
        cases h2
    rw [hb, if_neg (by simp [hc]), if_neg (by simp [hbr])]

/-- Witness for the amended C3: in the `fsDemo` workspace, the
canonical base command for a file under `a/b` is rewritten to scope the
run to the package `demo`, giving exactly
`cargo run -p demo --bin preview`. -/
theorem c3_command_rewrite_witness :
    ∃ a b, "cargo run --bin preview".toList = a ++ canonicalCmd ++ b ∧
      buildCargoCommand fsDemo "cargo run --bin preview".toList "a/b/c/file.rs".toList =
        a ++ ("cargo run -p ".toList ++ "demo".toList ++ " --bin preview".toList) ++ b :=
  (c3_command_rewrite fsDemo "cargo run --bin preview".toList "a/b/c/file.rs".toList
    "demo".toList "[workspace]\nmembers = [\"a\"]\n".toList
    (by decide) (by decide) (by decide) (by decide)).1 (by decide)


/-! ## Claim C4: package-name extraction -/

/-- Counterexample to C4: a `[package]` section whose body contains a
`[` character (here inside an array value) before the `name` assignment
makes the extraction regex fail, even though a well-formed name
assignment occurs in the section before any next section marker; the
same manifest without the intervening line extracts fine.  Moreover,
when another line precedes two parallel assignments, the greedy inner
`[^\[]*` makes the engine reach the farthest line first, so the second
assignment `x` — not the first one `demo` — is returned. -/
theorem c4_extraction_counterexample :
    extractPackageName ("[package]\n".toList ++ "keywords = [\"ui\"]\n".toList ++
      "name = \"demo\"\n".toList) = none ∧
    extractPackageName ("[package]\n".toList ++ "name = \"demo\"\n".toList) =
      some "demo".toList ∧
    extractPackageName ("[package]\n".toList ++ "edition = \"2021\"\n".toList ++
      "name = \"demo\"\n".toList ++ "name = \"x\"\n".toList) = some "x".toList := by
  decide

theorem dropPre_append_sep_none (sep : Char) :
    ∀ (p a b : List Char), sep ∉ a → sep ∉ p → isPre p a = false →
      dropPre p (a ++ sep :: b) = none := by
  intro p
  induction p with
  | nil =>
    intro a b _ _ hp
    simp [isPre, dropPre] at hp
  | cons x p' ih =>
    intro a b hsa hsp hp
    cases a with
    | nil =>
      have hx : ¬(x = sep) := by
        intro e
        subst e
        exact hsp (List.mem_cons_self _ _)
      simp [dropPre, hx]
    | cons y a' =>
      by_cases hxy : x = y
      · subst hxy
        simp only [List.cons_append, dropPre, if_pos rfl]
        apply ih
        · intro hm; exact hsa (List.mem_cons_of_mem _ hm)
        · intro hm; exact hsp (List.mem_cons_of_mem _ hm)
        · unfold isPre at hp ⊢
          simpa [dropPre] using hp
      · simp [List.cons_append, dropPre, hxy]

theorem nameAssignAt_line_none (l r : List Char) (h2 : '\n' ∉ l)
    (h3 : isPre "name".toList l = false) :
    nameAssignAt (l ++ '\n' :: r) = none := by
  have hd : dropPre "name".toList (l ++ '\n' :: r) = none :=
    dropPre_append_sep_none '\n' _ l r h2 (by decide) h3
  simp only [nameAssignAt, hd]

theorem skipChunk_line : ∀ (l r : List Char), '[' ∉ l → '\n' ∉ l →
    skipChunk (l ++ '\n' :: r) = some r := by
  intro l
  induction l with
  | nil => intro r _ _; rfl
  | cons c l' ih =>
    intro r h1 h2
    have hc1 : ¬(c = '[') := by
      intro e
      subst e
      exact h1 (List.mem_cons_self _ _)
    have hc2 : ¬(c = '\n') := by
      intro e
      subst e
      exact h2 (List.mem_cons_self _ _)
    simp only [List.cons_append, skipChunk, if_neg hc1, if_neg hc2]
    exact ih r (fun hm => h1 (List.mem_cons_of_mem _ hm))
      (fun hm => h2 (List.mem_cons_of_mem _ hm))

theorem skipChunk_lt : ∀ (l r : List Char), skipChunk l = some r →
    r.length < l.length := by
  intro l
  induction l with
  | nil => intro r h; cases h
  | cons c l' ih =>
    intro r h
    simp only [skipChunk] at h
    by_cases h1 : c = '['
    · rw [if_pos h1] at h; cases h
    · rw [if_neg h1] at h
      by_cases h2 : c = '\n'
      · rw [if_pos h2] at h
        injection h with h
        subst h
        simp
      · rw [if_neg h2] at h
        have h3 := ih r h
        simp only [List.length_cons]
        omega

theorem scanTailF_stable : ∀ (n m : Nat) (l : List Char),
    l.length < n → l.length < m → scanTailF n l = scanTailF m l := by
  intro n
  induction n with
  | zero => intro m l h _; omega
  | succ k ih =>
    intro m l h1 h2
    cases m with
    | zero => omega
    | succ m2 =>
      simp only [scanTailF]
      cases hs : skipChunk l with
      | none => rfl
      | some r =>
        have hr := skipChunk_lt l r hs
        dsimp only
        rw [ih m2 r (by omega) (by omega)]

theorem scanTail_eq_of_skip (l r : List Char) (hs : skipChunk l = some r) :
    scanTail l = (match scanTail r with
      | some v => some v
      | none => nameAssignAt r) := by
  have h1 : scanTail l = (match scanTailF l.length r with
      | some v => some v
      | none => nameAssignAt r) := by
    unfold scanTail
    simp only [scanTailF, hs]
  rw [h1, scanTailF_stable l.length (r.length + 1) r (skipChunk_lt l r hs) (by omega)]
  rfl

theorem scanTail_none (l : List Char) (hs : skipChunk l = none) : scanTail l = none := by
  unfold scanTail
  simp only [scanTailF, hs]

theorem skipChunk_none_of_no_newline : ∀ l, '\n' ∉ l → skipChunk l = none := by
  intro l
  induction l with
  | nil => intro _; rfl
  | cons c rest ih =>
    intro h
    have hc : ¬(c = '\n') := by
      intro e
      subst e
      exact h (List.mem_cons_self _ _)
    by_cases h1 : c = '['
    · simp [skipChunk, h1]
    · simp only [skipChunk, if_neg h1, if_neg hc]
      exact ih (fun hm => h (List.mem_cons_of_mem _ hm))

theorem takeWhile_all_append (p : Char → Bool) :
    ∀ (a : List Char) (x : Char) (b : List Char),
      (∀ c ∈ a, p c = true) → p x = false →
      (a ++ x :: b).takeWhile p = a ∧ (a ++ x :: b).dropWhile p = x :: b := by
  intro a
  induction a with
  | nil =>
    intro x b _ hx
    constructor
    · simp [List.takeWhile_cons, hx]
    · simp [List.dropWhile_cons, hx]
  | cons c a' ih =>
    intro x b hall hx
    have hc : p c = true := hall c (List.mem_cons_self _ _)
    have hrec := ih x b (fun d hd => hall d (List.mem_cons_of_mem _ hd)) hx
    constructor
    · simp [List.takeWhile_cons, hc, hrec.1]
    · simp [List.dropWhile_cons, hc, hrec.2]

theorem nameAssignAt_found (v rest : List Char) (hv1 : v ≠ []) (hv2 : '"' ∉ v) :
    nameAssignAt ("name = \"".toList ++ v ++ '"' :: rest) = some v := by
  have e1 : "name = \"".toList ++ v ++ '"' :: rest =
      "name".toList ++ (' ' :: '=' :: ' ' :: '"' :: (v ++ '"' :: rest)) := by
    have : "name = \"".toList = "name".toList ++ [' ', '=', ' ', '"'] := by decide
    rw [this]
    simp
  rw [e1]
  have hq : (fun c => c != '"') '"' = false := by decide
  have hvall : ∀ c ∈ v, (fun c => c != '"') c = true := by
    intro c hc
    simp only [bne_iff_ne, ne_eq, decide_eq_true_eq]
    intro e
    subst e
    exact hv2 hc
  have htk := takeWhile_all_append (fun c => c != '"') v '"' rest hvall hq
  have hvE : v.isEmpty = false := by
    cases v with
    | nil => exact absurd rfl hv1
    | cons _ _ => rfl
  have h6 : isPre "\"".toList ('"' :: rest) = true := rfl
  show (if ((v ++ '"' :: rest).takeWhile (fun c => c != '"')).isEmpty = true then none
      else if isPre "\"".toList ((v ++ '"' :: rest).dropWhile (fun c => c != '"')) = true
      then some ((v ++ '"' :: rest).takeWhile (fun c => c != '"')) else none) = some v
  rw [htk.1, htk.2, hvE, h6]
  simp

theorem afterPkgHeader_newline (X : List Char)
    (hX : ∀ c, X.head? = some c → isWsChar c = false) :
    afterPkgHeader ('\n' :: X) = some X := by
  have htw : X.takeWhile isWsChar = [] := by
    cases X with
    | nil => rfl
    | cons x xs =>
      have hx := hX x rfl
      simp [List.takeWhile_cons, hx]
  have hdw : X.dropWhile isWsChar = X := by
    cases X with
    | nil => rfl
    | cons x xs =>
      have hx := hX x rfl
      simp [List.dropWhile_cons, hx]
  have hwsn : isWsChar '\n' = true := by decide
  have h1 : ('\n' :: X).takeWhile isWsChar = ['\n'] := by
    simp [List.takeWhile_cons, hwsn, htw]
  have h2 : ('\n' :: X).dropWhile isWsChar = X := by
    simp [List.dropWhile_cons, hwsn, hdw]
  simp [afterPkgHeader, h1, h2]

theorem extractGo_of_first (txt r resume v : List Char)
    (h1 : dropPre "[package]".toList txt = some r)
    (h2 : afterPkgHeader r = some resume)
    (h3 : scanRegion resume = some v) :
    extractGo txt = some v := by
  cases txt with
  | nil => cases h1
  | cons c rest => simp only [extractGo, h1, h2, h3]

theorem scanTail_linesBlock (v nameline : List Char)
    (hnl : '\n' ∉ nameline) (hna : nameAssignAt nameline = some v) :
    ∀ ls : List (List Char), (∀ l ∈ ls, '[' ∉ l ∧ '\n' ∉ l) →
      scanTail (linesBlock ls ++ nameline) =
        (if ls = [] then none else some v) := by
  intro ls
  induction ls with
  | nil =>
    intro _
    simp only [linesBlock, List.nil_append, if_pos rfl]
    exact scanTail_none nameline (skipChunk_none_of_no_newline nameline hnl)
  | cons l ls2 ih =>
    intro hls
    obtain ⟨hl1, hl2⟩ := hls l (List.mem_cons_self _ _)
    have e : linesBlock (l :: ls2) ++ nameline =
        l ++ '\n' :: (linesBlock ls2 ++ nameline) := by
      simp [linesBlock]
    rw [e, scanTail_eq_of_skip _ _ (skipChunk_line l _ hl1 hl2),
      ih (fun l2 hm => hls l2 (List.mem_cons_of_mem _ hm))]
    cases ls2 with
    | nil => simp [linesBlock, hna]
    | cons l3 ls3 => simp

/-- C4 (amended): extraction locates the `[package]` header and then
behaves as the regex's backtracking dictates: the assignment
immediately at the resume position is found first, and otherwise the
line-start assignments of the `[`-free region are reached farthest
first.  In the single-assignment shape formalized here — a manifest
beginning with the header, whose section lines are nonempty,
unindented, contain no `[` character and do not begin with a name
assignment, and whose `name = "<value>"` assignment starts at the
beginning of the last line with a nonempty, quote-free and newline-free
value — extraction returns that value.  An intervening `[` anywhere, an
indented name line, or an earlier parallel assignment changes the
result (see the counterexample). -/
theorem c4_extraction_amended (ls : List (List Char)) (v rest : List Char)
    (hls : ∀ l ∈ ls, l ≠ [] ∧ '[' ∉ l ∧ '\n' ∉ l ∧ isPre "name".toList l = false ∧
      ∀ c, l.head? = some c → isWsChar c = false)
    (hv1 : v ≠ []) (hv2 : '"' ∉ v) (hv3 : '\n' ∉ v) (hrest : '\n' ∉ rest) :
    extractPackageName ("[package]\n".toList ++ linesBlock ls ++
      ("name = \"".toList ++ v ++ '"' :: rest)) = some v := by
  have hnl : '\n' ∉ ("name = \"".toList ++ v ++ '"' :: rest) := by
    intro hm
    rcases List.mem_append.mp hm with hm1 | hm2
    · rcases List.mem_append.mp hm1 with hma | hmb
      · exact absurd hma (by decide)
      · exact hv3 hmb
    · rcases List.mem_cons.mp hm2 with he | hmc
      · exact absurd he (by decide)
      · exact hrest hmc
  have hna : nameAssignAt ("name = \"".toList ++ v ++ '"' :: rest) = some v :=
    nameAssignAt_found v rest hv1 hv2
  have e : "[package]\n".toList ++ linesBlock ls ++
      ("name = \"".toList ++ v ++ '"' :: rest) =
      "[package]".toList ++
        ('\n' :: (linesBlock ls ++ ("name = \"".toList ++ v ++ '"' :: rest))) := by
    have h : "[package]\n".toList = "[package]".toList ++ ['\n'] := by decide
    rw [h]
    simp
  unfold extractPackageName
  rw [e]
  apply extractGo_of_first _ _ (linesBlock ls ++ ("name = \"".toList ++ v ++ '"' :: rest))
  · exact dropPre_self_append _ _
  · apply afterPkgHeader_newline
    intro c hc
    cases ls with
    | nil =>
      simp only [linesBlock, List.nil_append] at hc
      have he : ("name = \"".toList ++ v ++ '"' :: rest).head? = some 'n' := rfl
      rw [he] at hc
      injection hc with hc
      subst hc
      decide
    | cons l ls2 =>
      obtain ⟨hne, _, _, _, hhead⟩ := hls l (List.mem_cons_self _ _)
      cases l with
      | nil => exact absurd rfl hne
      | cons x xs =>
        have he : (linesBlock ((x :: xs) :: ls2) ++
            ("name = \"".toList ++ v ++ '"' :: rest)).head? = some x := by
          simp [linesBlock]
        rw [he] at hc
        injection hc with hc
        subst hc
        exact hhead _ rfl
  · cases ls with
    | nil =>
      simp only [linesBlock, List.nil_append]
      simp only [scanRegion, hna]
    | cons l ls2 =>
      obtain ⟨hne, hl1, hl2, hl3, hhead⟩ := hls l (List.mem_cons_self _ _)
      have e2 : linesBlock (l :: ls2) ++ ("name = \"".toList ++ v ++ '"' :: rest) =
          l ++ '\n' :: (linesBlock ls2 ++ ("name = \"".toList ++ v ++ '"' :: rest)) := by
        simp [linesBlock]
      have hnone : nameAssignAt (linesBlock (l :: ls2) ++
          ("name = \"".toList ++ v ++ '"' :: rest)) = none := by
        rw [e2]
        exact nameAssignAt_line_none l _ hl2 hl3
      have htail := scanTail_linesBlock v _ hnl hna (l :: ls2)
        (fun l2 hm => ⟨(hls l2 hm).2.1, (hls l2 hm).2.2.1⟩)
      simp only [scanRegion, hnone]
      rw [htail]
      simp

/-- Witness for the amended C4: a `[package]` section with an
`edition = "2021"` line (bracket-free) before the final name assignment
extracts `demo`. -/
theorem c4_extraction_amended_witness :
    extractPackageName ("[package]\n".toList ++
      linesBlock ["edition = \"2021\"".toList] ++
      ("name = \"".toList ++ "demo".toList ++ '"' :: ([] : List Char))) =
      some "demo".toList :=
  c4_extraction_amended ["edition = \"2021\"".toList] "demo".toList []
    (by decide) (by decide) (by decide) (by decide) (by decide)

/-- Witness-style instance for C10: a line-comment prefix before the
marker still yields the action target. -/
theorem c10_marker_substring_recognized_witness :
    containsStateless (jsTrim ("// ".toList ++ "#[snowscape::stateless]".toList ++
      ([] : List Char))) = true ∧
    scanLines ["// ".toList ++ "#[snowscape::stateless]".toList ++ ([] : List Char),
      "fn foo() {}".toList] = [⟨1, "foo".toList, PreviewType.stateless⟩] :=
  c10_marker_substring_recognized "// ".toList []

/-- Witness-style instance for the amended C7: the recognizer on a
comment line carrying a payloaded stateless marker is explained by the
marker language. -/
theorem c7_kind_surface_syntax_amended_witness :
    ∃ a m b, IsStatelessMarker m ∧
      "// #[snowscape::stateless(cfg)]".toList = a ++ m ++ b :=
  (c7_kind_surface_syntax_amended "// #[snowscape::stateless(cfg)]".toList).1.mp (by decide)
